import Mathlib

/-!
Verification of the lazy-sequence combinator library (iterable-js core).

The source of the repository provides the `Iterable` wrapper class
(constructor, Proxy-based index access, `get`, the static/method operator
pairs, the iterator method) and the `defaultIfEmpty` operator.  The
internal operator implementations (`cache`, `split`, `zip`, `equal`,
`map`, and the `utils` helpers `isIterable`, `isNumber`, `IterableCheck`,
`BadArgumentError`) are declared and called by that code but their bodies
are not part of the sources; where a claim depends on them they are
modelled from the specification, and each such definition says so in its
doc comment.

Sequences are embedded shallowly: a multi-pass source is a `List`, a
single-pass producer is a list of elements together with a cursor, and the
stateful subsystems (cache replay buffer, split branch buffers) are
explicit state records threaded through step functions.
-/

namespace IterableJS

/-! ## Sequence wrapper: `get` (src/src/internal/dependency.js lines 143-153)

The JS loop `let s = 0; for (const i of it) { if (s === index) return i; s += 1; } return undefined`
is embedded with the counter made explicit; `none` models `undefined`. -/

def getLoop (index : Nat) : List α → Nat → Option α
  | [], _ => none
  | i :: rest, s => if s = index then some i else getLoop index rest (s + 1)

/-- Iterable.prototype.get: fresh traversal of the wrapped reference,
counting yields until the requested ordinal is reached. -/
def iterGet (it : List α) (index : Nat) : Option α :=
  getLoop index it 0

/-! ## equal (internal/equal.js is absent from the sources)

Modelled from the spec: `equal(a, b)` advances both in lockstep; yields
false at the first index where values differ or one is exhausted while the
other is not; yields true only if both exhaust simultaneously with no
prior mismatch. -/

/-- Modelled from the spec: the lockstep comparison behind `equal`, with
internal/equal.js missing from the sources. -/
def equalSeq [DecidableEq α] : List α → List α → Bool
  | [], [] => true
  | [], _ :: _ => false
  | _ :: _, [] => false
  | x :: xs, y :: ys => if x = y then equalSeq xs ys else false

/-! ## defaultIfEmpty (src/src/internal/defaultIfEmpty.js)

The operator first runs `IterableCheck(iterable, 1, FIELD)` (utils is
absent from the sources; modelled from the spec as the capability check
raising a structured bad-argument error identifying the argument position
and the operator name, synchronously at call time).  The generator then
yields every upstream element, tracking with `flag` whether anything was
yielded, and yields `value` once if nothing was. -/

/-- Structured bad-argument error: argument position and operator name. -/
structure BadArgumentError where
  position : Nat
  operator : String
deriving DecidableEq, Repr

/-- Generator body of defaultIfEmpty: the loop with the `flag` variable. -/
def defaultIfEmptyGo (value : α) : List α → Bool → List α
  | [], flag => if flag then [value] else []
  | x :: xs, _ => x :: defaultIfEmptyGo value xs false

/-- defaultIfEmpty: the call-time capability check (a `none` argument models
a value failing the check), then the generator.  The check happens before
the sequence is built, hence before any traversal. -/
def defaultIfEmpty (iterable : Option (List α)) (value : α) :
    Except BadArgumentError (List α) :=
  match iterable with
  | none => .error ⟨1, "Iterable.defaultIfEmpty"⟩
  | some s => .ok (defaultIfEmptyGo value s true)

/-! ## cache (internal/cache.js is absent from the sources)

Modelled from the spec: a shared Replay Buffer (initially empty, not
terminal); each traversal of the cached Sequence proceeds by ordinal
position: for ordinal `i`, if `i < buffer.length`, yield `buffer[i]`
directly (no upstream interaction); else, if not terminal, pull the next
element from upstream, append to buffer, and yield it; if upstream
signals completion, mark terminal and end the traversal.  `pulls` counts
the element-producing upstream pulls (the spec counts `n` pulls for a
length-`n` source, so observing the completion signal is not a pull). -/

/-- Modelled from the spec: the Replay Buffer state of the Memoization
Subsystem, with internal/cache.js missing from the sources.  The upstream
single-pass producer is represented by its remaining elements. -/
structure CacheState (α : Type) where
  buffer : List α
  terminal : Bool
  upstream : List α
  pulls : Nat
deriving Repr, DecidableEq

/-- Initial cache state over a fresh upstream producer. -/
def initCache (s : List α) : CacheState α :=
  { buffer := [], terminal := false, upstream := s, pulls := 0 }

/-- Modelled from the spec: one full traversal of the cached sequence,
starting at ordinal `i`, returning the yielded elements and the updated
shared state. -/
def cacheRun (st : CacheState α) (i : Nat) : List α × CacheState α :=
  if h : i < st.buffer.length then
    let r := cacheRun st (i + 1)
    (st.buffer.get ⟨i, h⟩ :: r.1, r.2)
  else if st.terminal then ([], st)
  else match hm : st.upstream with
    | x :: rest =>
        let st1 : CacheState α :=
          { buffer := st.buffer ++ [x], terminal := false,
            upstream := rest, pulls := st.pulls + 1 }
        let r := cacheRun st1 (i + 1)
        (x :: r.1, r.2)
    | [] => ([], { st with terminal := true })
termination_by (st.buffer.length - i) + st.upstream.length
decreasing_by
  · omega
  · simp only [List.length_append, List.length_cons, hm, List.length_nil]
    omega

/-- Sequentially traverse the cached sequence `m` times, collecting each
traversal's yielded elements. -/
def cacheRuns (st : CacheState α) : Nat → List (List α) × CacheState α
  | 0 => ([], st)
  | m + 1 =>
      let r := cacheRun st 0
      let r2 := cacheRuns r.2 m
      (r.1 :: r2.1, r2.2)

/-! ## split (internal/split.js is absent from the sources)

Modelled from the spec: one shared upstream traversal; each produced
element is classified by position versus the cutoff (`position < cutoff`
goes to branch A, the rest to branch B); elements pulled by the traversal
of one branch but classified for the other are appended to the other
branch's buffer; a branch's traversal replays its own buffer first, then
continues driving the shared upstream.  The cutoff is an integer, so that
a cutoff ≤ 0 yields an empty branch A. -/

/-- Modelled from the spec: the shared state of the Split subsystem, with
internal/split.js missing from the sources: remaining upstream elements,
the count of elements pulled so far, and the two branch buffers. -/
structure SplitState (α : Type) where
  upstream : List α
  pos : Nat
  bufA : List α
  bufB : List α
deriving Repr, DecidableEq

/-- Initial split state over a fresh upstream producer. -/
def initSplit (s : List α) : SplitState α :=
  { upstream := s, pos := 0, bufA := [], bufB := [] }

/-- Modelled from the spec: full traversal of branch A of `split(S, k)`:
replay branch A's buffer, then pull upstream elements while their
position is below the cutoff. -/
def splitRunA (k : Int) (st : SplitState α) : List α × SplitState α :=
  match hA : st.bufA with
  | x :: r =>
      let res := splitRunA k { st with bufA := r }
      (x :: res.1, res.2)
  | [] =>
      if (st.pos : Int) < k then
        match hU : st.upstream with
        | x :: rest =>
            let res := splitRunA k
              { upstream := rest, pos := st.pos + 1, bufA := [],
                bufB := st.bufB }
            (x :: res.1, res.2)
        | [] => ([], st)
      else ([], st)
termination_by st.bufA.length + st.upstream.length
decreasing_by
  · simp only [hA, List.length_cons]
    omega
  · simp only [hA, hU, List.length_cons, List.length_nil]
    omega

/-- Modelled from the spec: full traversal of branch B of `split(S, k)`:
replay branch B's buffer, then drive the shared upstream, depositing
elements whose position is below the cutoff into branch A's buffer and
yielding the rest. -/
def splitRunB (k : Int) (st : SplitState α) : List α × SplitState α :=
  match hB : st.bufB with
  | x :: r =>
      let res := splitRunB k { st with bufB := r }
      (x :: res.1, res.2)
  | [] =>
      match hU : st.upstream with
      | x :: rest =>
          if (st.pos : Int) < k then
            splitRunB k
              { upstream := rest, pos := st.pos + 1,
                bufA := st.bufA ++ [x], bufB := [] }
          else
            let res := splitRunB k
              { upstream := rest, pos := st.pos + 1,
                bufA := st.bufA, bufB := [] }
            (x :: res.1, res.2)
      | [] => ([], st)
termination_by st.bufB.length + st.upstream.length
decreasing_by
  · simp only [hB, List.length_cons]
    omega
  · simp only [hB, hU, List.length_cons, List.length_nil]
    omega
  · simp only [hB, hU, List.length_cons, List.length_nil]
    omega

/-- Traverse branch A fully, then branch B fully, over the shared state,
returning the two yielded element sequences. -/
def splitAB (s : List α) (k : Int) : List α × List α :=
  let ra := splitRunA k (initSplit s)
  let rb := splitRunB k ra.2
  (ra.1, rb.1)

/-! ## zip (internal/zip.js is absent from the sources)

Modelled from the spec: advance all input sequences one step per output
step; stop as soon as any input signals completion; yield the combiner
applied to the ordered per-step values (the raw tuple when no combiner is
supplied corresponds to choosing the identity combiner).  The generator
loops forever when given zero inputs; the embedding handles only the
nonempty families of inputs the claims quantify over and maps the empty
family to the empty output. -/

/-- Modelled from the spec: take one step across a family of sequences,
returning their heads and tails, or nothing as soon as any input is
exhausted. -/
def headsTails : List (List α) → Option (List α × List (List α))
  | [] => some ([], [])
  | [] :: _ => none
  | (x :: xs) :: rest =>
      match headsTails rest with
      | none => none
      | some (hs, ts) => some (x :: hs, xs :: ts)

/-- Modelled from the spec: the zip loop, with the first input sequence
held apart so that the recursion is structural on it. -/
def zipGo (f : List α → β) : List α → List (List α) → List β
  | [], _ => []
  | x :: xs, rest =>
      match headsTails rest with
      | none => []
      | some (hs, ts) => f (x :: hs) :: zipGo f xs ts

/-- Modelled from the spec: `zip(sequences, combinerFn)` over a family of
finite sequences, with internal/zip.js missing from the sources. -/
def zipSeq (ls : List (List α)) (f : List α → β) : List β :=
  match ls with
  | [] => []
  | l :: rest => zipGo f l rest

/-- Length of the shortest sequence in the family `l :: rest`. -/
def minLen (l : List α) (rest : List (List α)) : Nat :=
  rest.foldl (fun m t => min m t.length) l.length

/-! ## Proxy-based index access (dependency.js lines 124-134)

The constructor returns `new Proxy(this, { get(target, index) { if (index
in target) return target[index]; if (isNumber(index)) return
target.get(index); return undefined; } })`.  The `isNumber` helper lives
in the absent utils module and is modelled from the spec: index-style
(numeric) field access is equivalent to `get`, non-numeric field access
defers to normal member lookup first.  Field keys are embedded as a sum
of numeric indices and member names, and the target's normal members as
the list of its member names. -/

/-- A property key: a numeric index or a member name. -/
inductive FieldKey where
  | num (i : Nat)
  | name (s : String)
deriving DecidableEq, Repr

/-- Result of the Proxy get trap: a member found by normal lookup, an
element lookup result, or `undefined`. -/
inductive ProxyVal (α : Type) where
  | member (s : String)
  | elem (v : Option α)
  | missing
deriving DecidableEq, Repr

/-- The string form of a property key (JS property keys are strings). -/
def keyString : FieldKey → String
  | .num i => toString i
  | .name s => s

/-- The Proxy get trap: member lookup first, then index access through
`get` for numeric keys, `undefined` otherwise. -/
def proxyGet (members : List String) (it : List α) (k : FieldKey) :
    ProxyVal α :=
  if members.contains (keyString k) then .member (keyString k)
  else match k with
    | .num i => .elem (iterGet it i)
    | .name _ => .missing

/-! ## Constructor (dependency.js lines 103-118)

`constructor(iterable)` evaluates `iterable.constructor.name` first; when
it equals the generator-procedure constructor name it sets `it[ITERATOR]
= it` (marking the generator self-starting) and stores it; otherwise,
when `isIterable(it)` holds (the capability check, modelled from the
spec), it stores it; otherwise it throws `BadArgumentError(1,
'Iterable.<constructor>', ...)`.  The member access can itself throw a
TypeError before any check runs: reading `.constructor` off `null` or
`undefined` throws, and so does reading `.name` when the value's
`constructor` is `null` or `undefined` (e.g. `Object.create(null)` or an
object literal with `constructor: null`), even when the value satisfies
the capability check.  The embedded argument type therefore distinguishes
`null`/`undefined`, generator procedures, and other values tagged with
whether the constructor-name access succeeds and whether the capability
check holds. -/

/-- A JS argument to the constructor: `null`/`undefined` (member access
on it throws), a generator procedure, or any other value tagged with
whether its `constructor.name` member access succeeds and whether it
satisfies the capability check. -/
inductive JSValue where
  | vnull
  | genFn
  | obj (hasCtorName : Bool) (iterable : Bool)
deriving DecidableEq, Repr

/-- Outcome of constructing an Iterable: success (recording whether the
source was marked self-starting), a structured bad-argument error, or a
TypeError escaping from the `constructor.name` member access. -/
inductive CtorResult where
  | ok (selfStarting : Bool)
  | badArg (e : BadArgumentError)
  | typeError
deriving DecidableEq, Repr

/-- The Iterable constructor: the `it.constructor.name` access comes
first and throws on `null`/`undefined` and on values without a usable
`constructor`; only then do the generator test and the capability check
run. -/
def iterableCtor : JSValue → CtorResult
  | .vnull => .typeError
  | .genFn => .ok true
  | .obj hasCtorName i =>
      if hasCtorName then
        if i then .ok false else .badArg ⟨1, "Iterable.<constructor>"⟩
      else .typeError

/-- Whether the constructor-name member access succeeds on an argument:
it fails on `null`/`undefined` and on values lacking a usable
`constructor`. -/
def ctorAccessOk : JSValue → Bool
  | .vnull => false
  | .genFn => true
  | .obj hasCtorName _ => hasCtorName

/-! ## Static and method call shapes (dependency.js lines 854-868 and
1575-1593)

`Iterable.map(it, fn)` returns `map(it, fn)`; the method `map(fn)`
returns `map(this.it, fn)`, with `this.it` the source stored by the
constructor.  `Iterable.zip(its, fn)` returns `zip(its, fn)`; the method
`zip(its, fn)` returns `zip([this.it, ...its], fn)`.  The internal `map`
operator (internal/map.js is absent from the sources) is modelled from
the spec as the one-pass element-wise transformation. -/

/-- Modelled from the spec: the internal one-pass `map` operator, with
internal/map.js missing from the sources. -/
def mapSeq (it : List α) (f : α → β) : List β :=
  it.map f

/-- The wrapper object: the constructor stores the wrapped source in the
`it` field. -/
structure IterableObj (α : Type) where
  it : List α
deriving Repr, DecidableEq

/-- Wrapping a multi-pass source: `new Iterable(s)` stores `s` as `it`. -/
def mkIterable (s : List α) : IterableObj α := ⟨s⟩

/-- Static call shape `Iterable.map(it, fn)`. -/
def staticMap (it : List α) (f : α → β) : List β := mapSeq it f

/-- Method call shape `.map(fn)`, bound to `this.it`. -/
def methodMap (self : IterableObj α) (f : α → β) : List β :=
  mapSeq self.it f

/-- Static call shape `Iterable.zip(its, fn)`. -/
def staticZip (its : List (List α)) (f : List α → β) : List β :=
  zipSeq its f

/-- Method call shape `.zip(its, fn)`: prepends `this.it` to the inputs. -/
def methodZip (self : IterableObj α) (its : List (List α))
    (f : List α → β) : List β :=
  zipSeq (self.it :: its) f

/-! ## Traversal frame condition (dependency.js lines 143-153 and
1599-1601)

`[ITERATOR]()` returns `this.it[ITERATOR]()` and `get` runs a `for..of`
loop over `this.it`; neither assigns to `this.it`.  An Iterable wrapping
a single-pass producer is embedded as the identity of the wrapped
reference (`itRef`) together with the producer's state (its elements and
its cursor); pulling advances only the cursor. -/

/-- A single-pass producer: fixed elements and a mutable position. -/
structure Producer (α : Type) where
  elems : List α
  pos : Nat
deriving Repr, DecidableEq

/-- An Iterable wrapping a single-pass producer; `itRef` models the
object identity of the `it` field. -/
structure IterState (α : Type) where
  itRef : Nat
  prod : Producer α
deriving Repr, DecidableEq

/-- The `get(index)` loop over a single-pass producer: pull elements,
counting yields, until the ordinal is reached or the producer completes;
it returns the result together with the post-traversal Iterable state. -/
def getSPLoop (index : Nat) (st : IterState α) (s : Nat) :
    Option α × IterState α :=
  if h : st.prod.pos < st.prod.elems.length then
    if s = index then
      (some (st.prod.elems.get ⟨st.prod.pos, h⟩),
       { itRef := st.itRef,
         prod := { elems := st.prod.elems, pos := st.prod.pos + 1 } })
    else
      getSPLoop index
        { itRef := st.itRef,
          prod := { elems := st.prod.elems, pos := st.prod.pos + 1 } }
        (s + 1)
  else (none, st)
termination_by st.prod.elems.length - st.prod.pos

/-- Index access `get(index)` on an Iterable wrapping a single-pass
producer. -/
def iterGetSP (st : IterState α) (index : Nat) : Option α × IterState α :=
  getSPLoop index st 0

/-- A full traversal beginning at the wrapper's iterator method: drive
the wrapped producer to completion, returning the yielded elements and
the post-traversal Iterable state. -/
def drainLoop (st : IterState α) : List α × IterState α :=
  if h : st.prod.pos < st.prod.elems.length then
    let r := drainLoop
      { itRef := st.itRef,
        prod := { elems := st.prod.elems, pos := st.prod.pos + 1 } }
    (st.prod.elems.get ⟨st.prod.pos, h⟩ :: r.1, r.2)
  else ([], st)
termination_by st.prod.elems.length - st.prod.pos

end IterableJS

namespace IterableJS

/-! ## Theorems -/

theorem getLoop_eq_getElem (index : Nat) (l : List α) (s : Nat) :
    getLoop index l s = if s ≤ index then l.get? (index - s) else none := by
  induction l generalizing s with
  | nil => simp [getLoop]
  | cons x xs ih =>
    simp only [getLoop, ih]
    rcases Nat.lt_trichotomy s index with h | h | h
    · rw [if_pos (Nat.le_of_lt h), if_pos (Nat.succ_le_of_lt h),
        if_neg (Nat.ne_of_lt h)]
      have hpos : 0 < index - s := Nat.sub_pos_of_lt h
      rw [show index - s = (index - (s + 1)) + 1 by omega]
      rfl
    · subst h
      simp
    · rw [if_neg (Nat.ne_of_gt h), if_neg (by omega), if_neg (by omega)]

/-- C5: `get(i)` traverses the wrapped multi-pass reference from the start
and returns the element at zero-based ordinal `i` when `i < |s|`, and the
not-found sentinel (`none`, modelling `undefined`) when the traversal
completes first.  Stated as: `iterGet` agrees with positional lookup. -/
theorem get_spec (s : List Int) (i : Nat) :
    iterGet s i = s.get? i ∧
      (∀ h : i < s.length, iterGet s i = some (s.get ⟨i, h⟩)) ∧
      (s.length ≤ i → iterGet s i = none) := by
  have hbase : iterGet s i = s.get? i := by
    rw [iterGet, getLoop_eq_getElem, if_pos (Nat.zero_le i), Nat.sub_zero]
  refine ⟨hbase, ?_, ?_⟩
  · intro h
    rw [hbase, List.get?_eq_get h]
  · intro h
    rw [hbase, List.get?_eq_none.mpr h]

/-- Witness for C5 on the source `[10, 20, 30]` at indices 1 and 5. -/
theorem get_spec_witness :
    iterGet ([10, 20, 30] : List Int) 1 = some 20 ∧
      iterGet ([10, 20, 30] : List Int) 5 = none := by
  have h1 := get_spec [10, 20, 30] 1
  have h2 := get_spec [10, 20, 30] 5
  refine ⟨?_, h2.2.2 (by decide)⟩
  have h3 := h1.2.1 (by decide)
  simpa using h3

theorem equalSeq_iff [DecidableEq α] (a b : List α) :
    equalSeq a b = true ↔ a = b := by
  induction a generalizing b with
  | nil => cases b <;> simp [equalSeq]
  | cons x xs ih =>
    cases b with
    | nil => simp [equalSeq]
    | cons y ys =>
      by_cases hxy : x = y
      · subst hxy
        simp [equalSeq, ih]
      · simp [equalSeq, hxy]

/-- C4: `equal(a, b)` yields true iff `a` and `b` exhaust simultaneously
with no pairwise value mismatch (i.e. they are equal as sequences), and
yields false otherwise; in particular it is true on `([1,2,3],[1,2,3])`
and `([],[])` and false on `([1,2,3],[1,2])`. -/
theorem equal_spec (a b : List Int) :
    (equalSeq a b = true ↔ a = b) ∧
      (equalSeq a b = false ↔ a ≠ b) ∧
      equalSeq [1, 2, 3] [1, 2, 3] = true ∧
      equalSeq ([] : List Int) [] = true ∧
      equalSeq [1, 2, 3] [1, 2] = false := by
  refine ⟨equalSeq_iff a b, ?_, by decide, by decide, by decide⟩
  rw [← Bool.not_eq_true, not_iff_not]
  exact equalSeq_iff a b

theorem defaultIfEmptyGo_cons (value : α) (x : α) (xs : List α) (fl : Bool) :
    defaultIfEmptyGo value (x :: xs) fl = x :: xs := by
  show x :: defaultIfEmptyGo value xs false = x :: xs
  congr 1
  induction xs with
  | nil => rfl
  | cons y ys ih => exact congrArg (y :: ·) ih

/-- C10: `defaultIfEmpty(s, v)` yields exactly the elements of `s` in
order when `s` is nonempty, yields exactly `[v]` when `s` is empty, and
the iterable-argument check fails synchronously with a structured
bad-argument error (position 1, operator name) before any sequence is
produced. -/
theorem defaultIfEmpty_spec (s : List Int) (v : Int) :
    defaultIfEmpty (some s) v = .ok (if s = [] then [v] else s) ∧
      defaultIfEmpty (none : Option (List Int)) v =
        .error ⟨1, "Iterable.defaultIfEmpty"⟩ := by
  refine ⟨?_, rfl⟩
  cases s with
  | nil => rfl
  | cons x xs =>
    have hne : x :: xs ≠ [] := by simp
    rw [if_neg hne]
    show Except.ok (defaultIfEmptyGo v (x :: xs) true) = Except.ok (x :: xs)
    rw [defaultIfEmptyGo_cons]

theorem cacheRun_terminal (st : CacheState α) (h : st.terminal = true) :
    ∀ i, cacheRun st i = (st.buffer.drop i, st) := by
  suffices H : ∀ n i, st.buffer.length - i ≤ n →
      cacheRun st i = (st.buffer.drop i, st) by
    exact fun i => H st.buffer.length i (Nat.sub_le _ _)
  intro n
  induction n with
  | zero =>
    intro i hi
    have hge : st.buffer.length ≤ i := by omega
    rw [cacheRun, dif_neg (by omega), if_pos h,
      List.drop_eq_nil_of_le hge]
  | succ n ih =>
    intro i hi
    by_cases hlt : i < st.buffer.length
    · rw [cacheRun, dif_pos hlt, ih (i + 1) (by omega)]
      simp only
      rw [List.get_cons_drop]
    · rw [cacheRun, dif_neg hlt, if_pos h,
        List.drop_eq_nil_of_le (by omega)]

theorem cacheRun_fill (u : List α) :
    ∀ (b : List α) (p : Nat),
      cacheRun { buffer := b, terminal := false, upstream := u, pulls := p }
          b.length =
        (u, { buffer := b ++ u, terminal := true, upstream := [],
              pulls := p + u.length }) := by
  induction u with
  | nil =>
    intro b p
    rw [cacheRun, dif_neg (by simp)]
    simp
  | cons x rest ih =>
    intro b p
    have hstep := ih (b ++ [x]) (p + 1)
    rw [List.length_append, List.length_singleton] at hstep
    rw [cacheRun, dif_neg (by simp), if_neg (by simp)]
    simp only
    rw [hstep]
    simp only [Prod.mk.injEq, CacheState.mk.injEq, List.append_assoc,
      List.singleton_append, List.length_cons, true_and, and_true]
    omega

theorem cacheRuns_terminal (st : CacheState α) (h : st.terminal = true) :
    ∀ m, cacheRuns st m = (List.replicate m (st.buffer), st) := by
  intro m
  induction m with
  | zero => rfl
  | succ m ih =>
    rw [cacheRuns, cacheRun_terminal st h 0, List.drop_zero]
    simp only [ih]
    rfl

/-- C1: traversing `cache(S)` over a finite length-`n` source `m ≥ 1`
times sequentially yields the identical element sequence (the source)
every time, and the upstream producer is pulled exactly `n` times in
total across all traversals, not `n * m` times. -/
theorem cache_spec (s : List Int) (m : Nat) (hm : 1 ≤ m) :
    (cacheRuns (initCache s) m).1 = List.replicate m s ∧
      (cacheRuns (initCache s) m).2.pulls = s.length := by
  obtain ⟨m', rfl⟩ : ∃ m', m = m' + 1 := ⟨m - 1, by omega⟩
  have h1 : cacheRun (initCache s) 0 =
      (s, { buffer := s, terminal := true, upstream := [],
            pulls := s.length }) := by
    have h := cacheRun_fill s [] 0
    simpa [initCache] using h
  have h2 := cacheRuns_terminal
    (α := Int)
    { buffer := s, terminal := true, upstream := [], pulls := s.length }
    rfl m'
  rw [cacheRuns]
  simp only [h1, h2]
  exact ⟨(List.replicate_succ s m').symm, trivial⟩

theorem splitRunA_drive (k : Int) :
    ∀ (u : List α) (pos : Nat) (bB : List α),
      splitRunA k { upstream := u, pos := pos, bufA := [], bufB := bB } =
        (u.take (k - pos).toNat,
         { upstream := u.drop (k - pos).toNat,
           pos := pos + min (k - pos).toNat u.length,
           bufA := [], bufB := bB }) := by
  intro u
  induction u with
  | nil =>
    intro pos bB
    rw [splitRunA]
    simp
  | cons x rest ih =>
    intro pos bB
    by_cases hk : (pos : Int) < k
    · have h1 : (k - pos).toNat = (k - ((pos : Int) + 1)).toNat + 1 := by
        omega
      rw [splitRunA]
      simp only [hk, if_true]
      have hih := ih (pos + 1) bB
      simp only [Nat.cast_add, Nat.cast_one] at hih
      rw [hih]
      simp only [h1, List.take_succ_cons, List.drop_succ_cons,
        Prod.mk.injEq, SplitState.mk.injEq, List.length_cons,
        true_and, and_true]
      omega
    · have h0 : (k - pos).toNat = 0 := by omega
      rw [splitRunA]
      simp only [hk, if_false, h0]
      simp

theorem splitRunB_ge (k : Int) :
    ∀ (u : List α) (pos : Nat) (bA : List α), k ≤ (pos : Int) →
      splitRunB k { upstream := u, pos := pos, bufA := bA, bufB := [] } =
        (u, { upstream := [], pos := pos + u.length, bufA := bA,
              bufB := [] }) := by
  intro u
  induction u with
  | nil =>
    intro pos bA h
    rw [splitRunB]
    simp
  | cons x rest ih =>
    intro pos bA h
    rw [splitRunB]
    simp only [if_neg (by omega : ¬ ((pos : Int) < k))]
    have hih := ih (pos + 1) bA (by
      have : ((pos + 1 : Nat) : Int) = (pos : Int) + 1 := by push_cast; ring
      omega)
    rw [hih]
    simp only [Prod.mk.injEq, SplitState.mk.injEq, List.length_cons,
      true_and, and_true]
    omega

theorem splitRunB_nilUpstream (k : Int) (pos : Nat) (bA : List α) :
    splitRunB k { upstream := [], pos := pos, bufA := bA, bufB := [] } =
      ([], { upstream := [], pos := pos, bufA := bA, bufB := [] }) := by
  rw [splitRunB]

/-- C2: for every single-pass source `s` and every integer cutoff `k`,
branch A of `split(s, k)` yields the first `k` elements (all of `s` when
`|s| < k`), branch B yields the remainder, and their concatenation
reproduces `s` exactly; a cutoff ≤ 0 yields an empty branch A, a cutoff
beyond `|s|` yields an empty branch B, and an empty upstream yields two
empty branches. -/
theorem split_spec (s : List Int) (k : Int) :
    (splitAB s k).1 = s.take k.toNat ∧
      (splitAB s k).2 = s.drop k.toNat ∧
      (splitAB s k).1 ++ (splitAB s k).2 = s ∧
      (k ≤ 0 → (splitAB s k).1 = []) ∧
      ((s.length : Int) ≤ k → (splitAB s k).2 = []) ∧
      (s = [] → (splitAB s k).1 = [] ∧ (splitAB s k).2 = []) := by
  have hA := splitRunA_drive k s 0 []
  simp only [Nat.cast_zero, sub_zero, Nat.zero_add, List.length_nil] at hA
  have hmain : splitAB s k = (s.take k.toNat, s.drop k.toNat) := by
    by_cases hcase : k ≤ ((min k.toNat s.length : Nat) : Int)
    · have hB := splitRunB_ge k (s.drop k.toNat) (min k.toNat s.length) []
        hcase
      simp only [splitAB, initSplit]
      rw [hA]
      dsimp only
      rw [hB]
    · have hd : s.drop k.toNat = [] := by
        apply List.drop_eq_nil_of_le
        omega
      have hB := splitRunB_nilUpstream (α := Int) k (min k.toNat s.length) []
      simp only [splitAB, initSplit]
      rw [hA]
      dsimp only
      rw [hd, hB]
  rw [hmain]
  refine ⟨rfl, rfl, List.take_append_drop _ s, ?_, ?_, ?_⟩
  · intro hk
    have : k.toNat = 0 := by omega
    simp [this]
  · intro hk
    apply List.drop_eq_nil_of_le
    omega
  · intro hs
    simp [hs]

/-- Witness for C2 at the concrete source `[1, 2, 3]` with cutoff 2. -/
theorem split_spec_witness :
    (splitAB ([1, 2, 3] : List Int) 2).1 = [1, 2] ∧
      (splitAB ([1, 2, 3] : List Int) 2).2 = [3] ∧
      (splitAB ([1, 2, 3] : List Int) 2).1 ++
          (splitAB ([1, 2, 3] : List Int) 2).2 = [1, 2, 3] := by
  have h := split_spec [1, 2, 3] 2
  obtain ⟨h1, h2, h3, _, _, _⟩ := h
  refine ⟨?_, ?_, ?_⟩
  · rw [h1]; rfl
  · rw [h2]; rfl
  · rw [h3]

theorem foldlMin_le_init (rest : List (List α)) :
    ∀ n : Nat, rest.foldl (fun m t => min m t.length) n ≤ n := by
  induction rest with
  | nil =>
    intro n
    simp
  | cons t r ih =>
    intro n
    rw [List.foldl_cons]
    exact Nat.le_trans (ih (min n t.length)) (Nat.min_le_left _ _)

theorem foldlMin_le_mem (rest : List (List α)) :
    ∀ (n : Nat) (t : List α), t ∈ rest →
      rest.foldl (fun m u => min m u.length) n ≤ t.length := by
  induction rest with
  | nil =>
    intro n t ht
    cases ht
  | cons a r ih =>
    intro n t ht
    rw [List.foldl_cons]
    rcases List.mem_cons.mp ht with h | h
    · subst h
      exact Nat.le_trans (foldlMin_le_init r _) (Nat.min_le_right _ _)
    · exact ih _ t h

theorem headsTails_none (rest : List (List α)) (h : headsTails rest = none) :
    ∃ t ∈ rest, t = [] := by
  induction rest with
  | nil => simp [headsTails] at h
  | cons a r ih =>
    cases a with
    | nil => exact ⟨[], List.mem_cons_self _ _, rfl⟩
    | cons x xs =>
      rw [headsTails] at h
      cases hr : headsTails r with
      | none =>
        obtain ⟨t, ht, h0⟩ := ih hr
        exact ⟨t, List.mem_cons_of_mem _ ht, h0⟩
      | some p =>
        rw [hr] at h
        obtain ⟨hs, ts⟩ := p
        simp at h

theorem headsTails_some_minLen (rest : List (List α)) :
    ∀ hs ts, headsTails rest = some (hs, ts) →
      ∀ n : Nat, List.foldl (fun m t => min m t.length) (n + 1) rest =
        List.foldl (fun m t => min m t.length) n ts + 1 := by
  induction rest with
  | nil =>
    intro hs ts h n
    simp only [headsTails, Option.some.injEq, Prod.mk.injEq] at h
    rw [← h.2]
    simp
  | cons a r ih =>
    intro hs ts h n
    cases a with
    | nil => simp [headsTails] at h
    | cons x xs =>
      rw [headsTails] at h
      cases hr : headsTails r with
      | none =>
        rw [hr] at h
        simp at h
      | some p =>
        obtain ⟨hs', ts'⟩ := p
        rw [hr] at h
        simp only [Option.some.injEq, Prod.mk.injEq] at h
        rw [← h.2]
        rw [List.foldl_cons, List.foldl_cons]
        have hmin : min (n + 1) (x :: xs).length = min n xs.length + 1 := by
          simp only [List.length_cons]
          omega
        rw [hmin]
        exact ih hs' ts' hr (min n xs.length)

theorem headsTails_some_getD (rest : List (List α)) :
    ∀ hs ts, headsTails rest = some (hs, ts) → ∀ d : α,
      rest.map (fun t => t.getD 0 d) = hs ∧
      ∀ i : Nat, rest.map (fun t => t.getD (i + 1) d) =
        ts.map (fun t => t.getD i d) := by
  induction rest with
  | nil =>
    intro hs ts h d
    simp only [headsTails, Option.some.injEq, Prod.mk.injEq] at h
    rw [← h.1, ← h.2]
    simp
  | cons a r ih =>
    intro hs ts h d
    cases a with
    | nil => simp [headsTails] at h
    | cons x xs =>
      rw [headsTails] at h
      cases hr : headsTails r with
      | none =>
        rw [hr] at h
        simp at h
      | some p =>
        obtain ⟨hs', ts'⟩ := p
        rw [hr] at h
        simp only [Option.some.injEq, Prod.mk.injEq] at h
        obtain ⟨hihd, hiht⟩ := ih hs' ts' hr d
        rw [← h.1, ← h.2]
        constructor
        · simp only [List.map_cons, List.getD_cons_zero, hihd]
        · intro i
          simp only [List.map_cons, List.getD_cons_succ, hiht i]

theorem zipGo_spec (f : List α → β) :
    ∀ (l : List α) (rest : List (List α)),
      (zipGo f l rest).length = minLen l rest ∧
      ∀ (i : Nat) (d : α), i < minLen l rest →
        (zipGo f l rest).get? i =
          some (f ((l :: rest).map (fun t => t.getD i d))) := by
  intro l
  induction l with
  | nil =>
    intro rest
    have h0 := foldlMin_le_init rest 0
    constructor
    · show (zipGo f [] rest).length = minLen [] rest
      rw [zipGo]
      simp only [List.length_nil, minLen]
      omega
    · intro i d hi
      exfalso
      simp only [minLen, List.length_nil] at hi
      omega
  | cons x xs ih =>
    intro rest
    cases hr : headsTails rest with
    | none =>
      obtain ⟨t, ht, ht0⟩ := headsTails_none rest hr
      subst ht0
      have hml : minLen (x :: xs) rest = 0 := by
        have hle := foldlMin_le_mem rest (x :: xs).length [] ht
        simp only [List.length_nil] at hle
        simp only [minLen]
        omega
      constructor
      · rw [zipGo]
        simp only [hr, hml, List.length_nil]
      · intro i d hi
        rw [hml] at hi
        exact absurd hi (Nat.not_lt_zero i)
    | some p =>
      obtain ⟨hs, ts⟩ := p
      have hml : minLen (x :: xs) rest = minLen xs ts + 1 := by
        have h := headsTails_some_minLen rest hs ts hr xs.length
        simpa [minLen] using h
      obtain ⟨ihlen, ihget⟩ := ih ts
      constructor
      · rw [zipGo]
        simp only [hr, List.length_cons, ihlen, hml]
      · intro i d hi
        obtain ⟨hg0, hgS⟩ := headsTails_some_getD rest hs ts hr d
        rw [zipGo]
        simp only [hr]
        cases i with
        | zero =>
          simp only [List.get?, List.map_cons, List.getD_cons_zero, hg0,
            Option.some.injEq]
        | succ j =>
          have hj : j < minLen xs ts := by omega
          simp only [List.get?]
          rw [ihget j d hj]
          simp only [List.map_cons, List.getD_cons_succ, hgS j]

/-- C3: for a nonempty family of input sequences and a combiner `f`,
`zip` yields exactly `min` of the input lengths many elements, stopping
at the first exhausted input, and the `i`-th output is `f` applied to the
ordered tuple of the `i`-th elements of every input; in particular
`zip([[1,2,3],[10,20]], sum)` yields `[11, 22]`. -/
theorem zip_spec (l : List Int) (rest : List (List Int))
    (f : List Int → Int) :
    ((zipSeq (l :: rest) f).length = minLen l rest ∧
      ∀ (i : Nat) (d : Int), i < minLen l rest →
        (zipSeq (l :: rest) f).get? i =
          some (f ((l :: rest).map (fun t => t.getD i d)))) ∧
      zipSeq [[1, 2, 3], [10, 20]]
          (fun v => v.foldl (fun a b => a + b) 0) = [11, 22] := by
  refine ⟨zipGo_spec f l rest, ?_⟩
  decide

/-- Witness for C3 at the concrete inputs `[[1,2,3],[10,20]]` with the
sum combiner. -/
theorem zip_spec_witness :
    (zipSeq ([[1, 2, 3], [10, 20]] : List (List Int))
        (fun v => v.foldl (fun a b => a + b) 0)).length = 2 ∧
      (zipSeq ([[1, 2, 3], [10, 20]] : List (List Int))
          (fun v => v.foldl (fun a b => a + b) 0)).get? 1 = some 22 := by
  have h := zip_spec [1, 2, 3] [[10, 20]]
    (fun v => v.foldl (fun a b => a + b) 0)
  obtain ⟨⟨hlen, hget⟩, _⟩ := h
  constructor
  · exact hlen.trans (by decide)
  · have h1 := hget 1 0 (by decide)
    have h2 : some (List.foldl (fun a b => a + b) 0
        (List.map (fun t => t.getD 1 (0 : Int)) [[1, 2, 3], [10, 20]])) =
        some (22 : Int) := by decide
    exact h1.trans h2

/-- C6: index-style field access through the Proxy returns the same
value as `get(i)` whenever the numeric key is not shadowed by a normal
member, and access through any non-numeric field name defers to normal
member lookup first, falling back to `undefined`. -/
theorem proxy_spec (members : List String) (it : List Int) (i : Nat)
    (s : String) (h : members.contains (toString i) = false) :
    proxyGet members it (.num i) = .elem (iterGet it i) ∧
      proxyGet members it (.name s) =
        (if members.contains s then .member s else .missing) := by
  constructor
  · simp [proxyGet, keyString]
    simpa using h
  · by_cases hs : members.contains s <;> simp [proxyGet, keyString, hs]

/-- Witness for C6 on the members of the wrapper, the source
`[10, 20, 30]`, numeric key 1 and member name "get". -/
theorem proxy_spec_witness :
    proxyGet ["it", "get"] ([10, 20, 30] : List Int) (.num 1) =
        .elem (iterGet [10, 20, 30] 1) ∧
      proxyGet ["it", "get"] ([10, 20, 30] : List Int) (.name "get") =
        (if ["it", "get"].contains "get" then .member "get"
         else .missing) :=
  proxy_spec ["it", "get"] [10, 20, 30] 1 "get" (by decide)

/-- Counterexample to C7 as stated: at `undefined` (or `null`), and
equally at a non-null object lacking a usable `constructor` (such as
`Object.create(null)` or an object literal with `constructor: null`),
the constructor raises a TypeError from the `it.constructor.name`
member access, not the structured bad-argument error, so an exception
other than the bad-argument error escapes the constructor; for such an
object that satisfies the capability check, construction does not
succeed either. -/
theorem ctor_counterexample :
    iterableCtor .vnull = .typeError ∧
      iterableCtor .vnull ≠ .badArg ⟨1, "Iterable.<constructor>"⟩ ∧
      iterableCtor (.obj false false) = .typeError ∧
      iterableCtor (.obj false false) ≠
        .badArg ⟨1, "Iterable.<constructor>"⟩ ∧
      iterableCtor (.obj false true) = .typeError := by
  refine ⟨rfl, by decide, rfl, by decide, rfl⟩

/-- C7 (amended): for every argument on which the `it.constructor.name`
member access succeeds, construction succeeds exactly on generator
procedures (marked self-starting) and on objects satisfying the
capability check, fails with the structured bad-argument error
(position 1, operator `Iterable.<constructor>`) otherwise, and lets no
other kind of exception escape; arguments on which that access throws —
`null`, `undefined`, and objects without a usable `constructor` — raise
a TypeError from the access instead, before the capability check runs. -/
theorem ctor_spec (v : JSValue) (h : ctorAccessOk v = true) :
    (v = .genFn → iterableCtor v = .ok true) ∧
      (v = .obj true true → iterableCtor v = .ok false) ∧
      (v = .obj true false →
        iterableCtor v = .badArg ⟨1, "Iterable.<constructor>"⟩) ∧
      iterableCtor v ≠ .typeError := by
  cases v with
  | vnull => simp [ctorAccessOk] at h
  | genFn => decide
  | obj hc i =>
    simp only [ctorAccessOk] at h
    subst h
    cases i <;> decide

/-- Witness for C7 (amended) at the concrete argument whose
constructor-name access succeeds but which fails the capability check. -/
theorem ctor_spec_witness :
    (JSValue.obj true false = JSValue.genFn →
        iterableCtor (.obj true false) = .ok true) ∧
      (JSValue.obj true false = JSValue.obj true true →
        iterableCtor (.obj true false) = .ok false) ∧
      (JSValue.obj true false = JSValue.obj true false →
        iterableCtor (.obj true false) =
          .badArg ⟨1, "Iterable.<constructor>"⟩) ∧
      iterableCtor (.obj true false) ≠ .typeError :=
  ctor_spec (.obj true false) (by decide)

/-- C8: for `map` and `zip`, the free/static call shape taking the
source explicitly and the method call shape bound to `this.it` as the
implicit source produce identical results for identical remaining
arguments: `Iterable.map(s, f)` equals `new Iterable(s).map(f)`, and
`Iterable.zip([s, ...its], g)` equals `new Iterable(s).zip(its, g)`. -/
theorem call_shape_spec (s : List Int) (f : Int → Int)
    (its : List (List Int)) (g : List Int → Int) :
    staticMap s f = methodMap (mkIterable s) f ∧
      staticZip (s :: its) g = methodZip (mkIterable s) its g :=
  ⟨rfl, rfl⟩

theorem getSPLoop_frame (index : Nat) :
    ∀ (n : Nat) (st : IterState α) (s : Nat),
      st.prod.elems.length - st.prod.pos ≤ n →
      (getSPLoop index st s).2.itRef = st.itRef ∧
        (getSPLoop index st s).2.prod.elems = st.prod.elems := by
  intro n
  induction n with
  | zero =>
    intro st s hn
    rw [getSPLoop, dif_neg (by omega)]
    exact ⟨rfl, rfl⟩
  | succ n ih =>
    intro st s hn
    by_cases h : st.prod.pos < st.prod.elems.length
    · by_cases hs : s = index
      · rw [getSPLoop, dif_pos h, if_pos hs]
        exact ⟨rfl, rfl⟩
      · rw [getSPLoop, dif_pos h, if_neg hs]
        exact ih _ (s + 1) (by simp only; omega)
    · rw [getSPLoop, dif_neg h]
      exact ⟨rfl, rfl⟩

theorem drainLoop_frame :
    ∀ (n : Nat) (st : IterState α),
      st.prod.elems.length - st.prod.pos ≤ n →
      (drainLoop st).2.itRef = st.itRef ∧
        (drainLoop st).2.prod.elems = st.prod.elems := by
  intro n
  induction n with
  | zero =>
    intro st hn
    rw [drainLoop, dif_neg (by omega)]
    exact ⟨rfl, rfl⟩
  | succ n ih =>
    intro st hn
    by_cases h : st.prod.pos < st.prod.elems.length
    · rw [drainLoop, dif_pos h]
      exact ih _ (by simp only; omega)
    · rw [drainLoop, dif_neg h]
      exact ⟨rfl, rfl⟩

/-- C9: neither beginning and completing a traversal nor a `get(index)`
call mutates the Iterable object itself: the wrapped producer reference
(`it` field) is identical before and after, and the wrapped producer's
elements are untouched — only its position may advance. -/
theorem traversal_frame (st : IterState Int) (i : Nat) :
    (iterGetSP st i).2.itRef = st.itRef ∧
      (iterGetSP st i).2.prod.elems = st.prod.elems ∧
      (drainLoop st).2.itRef = st.itRef ∧
      (drainLoop st).2.prod.elems = st.prod.elems := by
  obtain ⟨h1, h2⟩ := getSPLoop_frame i (st.prod.elems.length) st 0
    (Nat.sub_le _ _)
  obtain ⟨h3, h4⟩ := drainLoop_frame (st.prod.elems.length) st
    (Nat.sub_le _ _)
  exact ⟨h1, h2, h3, h4⟩

/-- Witness for C1 at the concrete source `[5, 6, 7]` traversed twice. -/
theorem cache_spec_witness :
    (cacheRuns (initCache ([5, 6, 7] : List Int)) 2).1 =
        List.replicate 2 [5, 6, 7] ∧
      (cacheRuns (initCache ([5, 6, 7] : List Int)) 2).2.pulls = 3 := by
  have h := cache_spec [5, 6, 7] 2 (by omega)
  simpa using h

end IterableJS
